import Mathlib

/-!
# Verification of the parametric floor generator

Shallow embedding of the floor-mesh generator (`__init__.py`, class
`archipack_floor`) over exact rationals (coordinates) and reals (angles).
Numeric fields of the Blender property group become fields of `FloorCfg`;
the three class-level buffers `vs`, `fs`, `ms` become `MeshState` together
with a counter of random draws taken from an oracle stream.
-/

set_option maxRecDepth 10000

/-- Comparison selector constant `EQUAL` from the source module. -/
def EQUAL : ℕ := 0

/-- Comparison selector constant `NOT_EQUAL` from the source module. -/
def NOT_EQUAL : ℕ := 1

/-- Comparison selector constant `LESS_EQUAL` from the source module. -/
def LESS_EQUAL : ℕ := 2

/-- Comparison selector constant `GREATER_EQUAL` from the source module. -/
def GREATER_EQUAL : ℕ := 3

/-- Comparison selector constant `LESS` from the source module. -/
def LESS : ℕ := 4

/-- Comparison selector constant `GREATER` from the source module. -/
def GREATER : ℕ := 5

/-- `SLOP = 0.001`, the wiggle room used by `rough_comp`. -/
def SLOP : ℚ := 1 / 1000

/-- `math.isclose(a, b, abs_tol=SLOP)`: the relative tolerance keeps its
Python default `1e-9`, so the test is
`|a-b| <= max(1e-9 * max(|a|,|b|), SLOP)`. -/
def isclose (a b : ℚ) : Bool :=
  decide (|a - b| ≤ max ((1 / 1000000000) * max |a| |b|) SLOP)

/-- `archipack_floor.rough_comp`, branch for branch. -/
def rough_comp (val1 val2 : ℚ) (comp : ℕ) : Bool :=
  if (comp = EQUAL ∨ comp = LESS_EQUAL ∨ comp = GREATER_EQUAL) ∧ isclose val1 val2 then
    true
  else if comp = NOT_EQUAL ∧ ¬ (isclose val1 val2 = true) then
    true
  else
    -- upper, lower = val2 - SLOP, val2 + SLOP (names as in the source)
    let upper := val2 - SLOP
    let lower := val2 + SLOP
    if comp = LESS_EQUAL ∧ val1 < val2 then true
    else if comp = GREATER_EQUAL ∧ val2 < val1 then true
    else if comp = LESS ∧ (val1 < upper ∨ val1 < lower) then true
    else if comp = GREATER ∧ (upper < val1 ∨ lower < val1) then true
    else false

/-- Python `round` to an integer: round half to even. -/
def pyRoundInt (q : ℚ) : ℤ :=
  let f := ⌊q⌋
  let r := q - f
  if r < 1 / 2 then f
  else if 1 / 2 < r then f + 1
  else if 2 ∣ f then f else f + 1

/-- Python `round(q, 4)`. -/
def round4 (q : ℚ) : ℚ :=
  (pyRoundInt (q * 10000) : ℚ) / 10000

/-- `archipack_floor.round_tuple` with the default 4 digits, for 2d points. -/
def round_tuple (p : ℚ × ℚ) : ℚ × ℚ :=
  (round4 p.1, round4 p.2)

/-- The configuration fields of the `archipack_floor` property group that the
geometry generators read (exact rational values). -/
structure FloorCfg where
  width : ℚ
  length : ℚ
  spacing : ℚ
  thickness : ℚ
  vary_thickness : Bool
  thickness_variance : ℚ
  board_width : ℚ
  vary_width : Bool
  width_variance : ℚ
  width_spacing : ℚ
  board_length : ℚ
  short_board_length : ℚ
  vary_length : Bool
  length_variance : ℚ
  max_boards : ℕ
  length_spacing : ℚ
  boards_in_group : ℕ
  tile_width : ℚ
  tile_length : ℚ
  mortar_depth : ℚ
  random_offset : Bool
  offset : ℚ
  offset_variance : ℚ
  deriving DecidableEq

/-- The three parallel mesh buffers (`vs`, `fs`, `ms`) plus the number of
pseudo-random draws consumed so far. -/
structure MeshState where
  vs : List (ℚ × ℚ × ℚ)
  fs : List (List ℕ)
  ms : List ℕ
  k : ℕ
  deriving DecidableEq

/-- The empty accumulator a generation pass starts from. -/
def emptyMesh : MeshState := ⟨[], [], [], 0⟩

/-- `random.uniform(lo, hi)` modelled nondeterministically: the oracle value
`u` is clamped into the closed interval spanned by `lo` and `hi`. -/
def pyUniform (lo hi u : ℚ) : ℚ :=
  max (min u (max lo hi)) (min lo hi)

/-- `archipack_floor.get_thickness`; consumes one oracle draw exactly when
`vary_thickness` is set. -/
def get_thickness (cfg : FloorCfg) (rs : ℕ → ℚ) (st : MeshState) : ℚ × MeshState :=
  if cfg.vary_thickness = true then
    let off := if cfg.thickness_variance ≠ 0 then cfg.thickness_variance / 100 else 0
    let v := off * cfg.thickness
    (pyUniform (cfg.thickness - v) (cfg.thickness + v) (rs st.k), { st with k := st.k + 1 })
  else
    (cfg.thickness, st)

/-- The six quad faces appended by `add_cube_faces`, where `p` is the index of
the first of the eight vertices just appended. -/
def cubeFaces (p : ℕ) : List (List ℕ) :=
  [[p, p + 2, p + 3, p + 1], [p + 2, p + 6, p + 7, p + 3], [p + 1, p + 3, p + 7, p + 5],
   [p + 6, p + 4, p + 5, p + 7], [p, p + 1, p + 5, p + 4], [p, p + 4, p + 6, p + 2]]

/-- `archipack_floor.add_cube` (together with `add_cube_faces` and
`add_cube_mat_ids`): emits one clipped axis-aligned cuboid. -/
def add_cube (cfg : FloorCfg) (st : MeshState) (x y z w l t : ℚ)
    (clip : Bool) (mat_id : ℕ) : MeshState :=
  if clip = true ∧ (cfg.width ≤ x ∨ cfg.length ≤ y) then
    st
  else
    let w := if clip = true ∧ cfg.width < x + w then cfg.width - x else w
    let l := if clip = true ∧ cfg.length < y + l then cfg.length - y else l
    { st with
      vs := st.vs ++ [(x, y, z), (x, y, z + t), (x + w, y, z), (x + w, y, z + t),
                      (x, y + l, z), (x, y + l, z + t), (x + w, y + l, z), (x + w, y + l, z + t)],
      fs := st.fs ++ cubeFaces st.vs.length,
      ms := st.ms ++ List.replicate 6 mat_id }

/-- `archipack_floor.tile_grout`: the mortar slab emitted before every tile
pattern. -/
def tile_grout (cfg : FloorCfg) (st : MeshState) : MeshState :=
  let z := cfg.thickness - cfg.mortar_depth
  let x := cfg.width
  let y := cfg.length
  add_cube cfg st 0 0 0 x y z true 1

/-- Inner `while cur_x < self.width` loop of `archipack_floor.tile_regular`,
with an explicit fuel bound (`none` = fuel exhausted before the loop exited).
`o` is the precomputed fixed-offset fraction. -/
def tileRegularX (cfg : FloorCfg) (rs : ℕ → ℚ) (o cur_y tl2 : ℚ) (off : Bool) :
    ℕ → ℚ → MeshState → Option MeshState
  | 0, _, _ => none
  | fuel + 1, cur_x, st =>
    if cur_x < cfg.width then
      let pr :=
        if cur_x < cfg.width ∧ cfg.width < cur_x + cfg.tile_width then
          (cfg.width - cur_x, st)
        else if cur_x = 0 ∧ off = true ∧ cfg.random_offset = false then
          (cfg.tile_width * o, st)
        else if cur_x = 0 ∧ cfg.random_offset = true then
          let v := cfg.tile_width * cfg.offset_variance * (49 / 10000)
          (pyUniform (cfg.tile_width / 2 - v) (cfg.tile_width / 2 + v) (rs st.k),
           { st with k := st.k + 1 })
        else (cfg.tile_width, st)
      let pth := get_thickness cfg rs pr.2
      let st2 := add_cube cfg pth.2 cur_x cur_y 0 pr.1 tl2 pth.1 true 0
      tileRegularX cfg rs o cur_y tl2 off fuel (cur_x + pr.1 + cfg.spacing) st2
    else some st

/-- Outer `while cur_y < self.length` loop of `archipack_floor.tile_regular`. -/
def tileRegularY (cfg : FloorCfg) (rs : ℕ → ℚ) (o : ℚ) :
    ℕ → ℚ → Bool → MeshState → Option MeshState
  | 0, _, _, _ => none
  | fuel + 1, cur_y, off, st =>
    if cur_y < cfg.length then
      let tl2 :=
        if cur_y < cfg.length ∧ cfg.length < cur_y + cfg.tile_length then
          cfg.length - cur_y
        else cfg.tile_length
      match tileRegularX cfg rs o cur_y tl2 off fuel 0 st with
      | none => none
      | some st2 => tileRegularY cfg rs o fuel (cur_y + tl2 + cfg.spacing) (!off) st2
    else some st

/-- `archipack_floor.tile_regular`, fuel-bounded. -/
def tile_regular (cfg : FloorCfg) (rs : ℕ → ℚ) (fuel : ℕ) (st : MeshState) :
    Option MeshState :=
  let o := if cfg.offset ≠ 0 then cfg.offset / 100 else 0
  tileRegularY cfg rs o fuel 0 false st

/-- Inner `while cur_y < self.length` loop of `archipack_floor.wood_regular`
(the per-column board loop; `counter` starts at 1). -/
def woodRegularY (cfg : FloorCfg) (rs : ℕ → ℚ) (bw2 cur_x : ℚ) :
    ℕ → ℚ → ℕ → MeshState → Option MeshState
  | 0, _, _, _ => none
  | fuel + 1, cur_y, counter, st =>
    if cur_y < cfg.length then
      let pr :=
        if cfg.vary_length = true then
          let v := cfg.board_length * (cfg.length_variance / 100) * (99 / 100)
          (pyUniform (cfg.board_length - v) (cfg.board_length + v) (rs st.k),
           { st with k := st.k + 1 })
        else (cfg.board_length, st)
      let bl2 :=
        if (cfg.max_boards ≤ counter ∧ cfg.vary_length = true) ∨ cfg.length < cur_y + pr.1 then
          cfg.length - cur_y
        else pr.1
      let pth := get_thickness cfg rs pr.2
      let st3 := add_cube cfg pth.2 cur_x cur_y 0 bw2 bl2 pth.1 true 0
      woodRegularY cfg rs bw2 cur_x fuel (cur_y + bl2 + cfg.length_spacing) (counter + 1) st3
    else some st

/-- Outer `while cur_x < self.width` loop of `archipack_floor.wood_regular`. -/
def woodRegularX (cfg : FloorCfg) (rs : ℕ → ℚ) :
    ℕ → ℚ → MeshState → Option MeshState
  | 0, _, _ => none
  | fuel + 1, cur_x, st =>
    if cur_x < cfg.width then
      let pr :=
        if cfg.vary_width = true then
          let v := cfg.board_width * (cfg.width_variance / 100) * (99 / 100)
          (pyUniform (cfg.board_width - v) (cfg.board_width + v) (rs st.k),
           { st with k := st.k + 1 })
        else (cfg.board_width, st)
      let bw2 := if cfg.width < pr.1 + cur_x then cfg.width - cur_x else pr.1
      match woodRegularY cfg rs bw2 cur_x fuel 0 1 pr.2 with
      | none => none
      | some st2 => woodRegularX cfg rs fuel (cur_x + bw2 + cfg.width_spacing) st2
    else some st

/-- `archipack_floor.wood_regular`, fuel-bounded. -/
def wood_regular (cfg : FloorCfg) (rs : ℕ → ℚ) (fuel : ℕ) (st : MeshState) :
    Option MeshState :=
  woodRegularX cfg rs fuel 0 st

/-- A 2d boundary segment (a pair of points). -/
def Seg : Type := (ℚ × ℚ) × (ℚ × ℚ)

/-- `archipack_floor.line_from_points`: the affine function through the two
points, with slope 0 as the vertical-segment fallback. -/
def line_from_points (p1 p2 : ℚ × ℚ) (x : ℚ) : ℚ :=
  (if p2.1 - p1.1 ≠ 0 then (p2.2 - p1.2) / (p2.1 - p1.1) else 0) * (x - p1.1) + p1.2

/-- `archipack_floor.point_of_intersection` of the two infinite lines through
`[p1, p2]` and `[p3, p4]`; `none` when parallel (zero determinant). -/
def point_of_intersection (p1 p2 p3 p4 : ℚ × ℚ) : Option (ℚ × ℚ) :=
  let bottom := (p1.1 - p2.1) * (p3.2 - p4.2) - (p1.2 - p2.2) * (p3.1 - p4.1)
  let part1 := p1.1 * p2.2 - p1.2 * p2.1
  let part2 := p3.1 * p4.2 - p3.2 * p4.1
  if bottom ≠ 0 then
    some ((part1 * (p3.1 - p4.1) - (p1.1 - p2.1) * part2) / bottom,
          (part1 * (p3.2 - p4.2) - (p1.2 - p2.2) * part2) / bottom)
  else
    none

/-- `archipack_floor.points_on_same_side_of_line_segment`.  Note the source's
control flow: the two y-value comparisons are `elif` arms of the *outer*
vertical-line test, so they run only for non-vertical segments. -/
def points_on_same_side_of_line_segment (pt1 pt2 : ℚ × ℚ) (seg : Seg) : Bool :=
  let y1 := round4 (line_from_points seg.1 seg.2 pt1.1)
  let y2 := round4 (line_from_points seg.1 seg.2 pt2.1)
  if rough_comp seg.1.1 seg.2.1 EQUAL = true then
    if rough_comp pt1.1 seg.1.1 GREATER_EQUAL = true ∧
        rough_comp pt2.1 seg.1.1 GREATER_EQUAL = true then true
    else if rough_comp pt1.1 seg.1.1 LESS_EQUAL = true ∧
        rough_comp pt2.1 seg.1.1 LESS_EQUAL = true then true
    else false
  else if rough_comp pt1.2 y1 LESS_EQUAL = true ∧ rough_comp pt2.2 y2 LESS_EQUAL = true then
    true
  else if rough_comp pt1.2 y1 GREATER_EQUAL = true ∧
      rough_comp pt2.2 y2 GREATER_EQUAL = true then
    true
  else false

/-- `archipack_floor.point_in_shape` (the out-of-bounds diagnostic file write
of the source is a no-op here). -/
def point_in_shape (cfg : FloorCfg) (point : ℚ × ℚ) (shape : List Seg)
    (center : ℚ × ℚ) : Bool :=
  if ¬ (rough_comp point.1 0 GREATER_EQUAL = true ∧
        rough_comp point.1 cfg.width LESS_EQUAL = true ∧
        rough_comp point.2 0 GREATER_EQUAL = true ∧
        rough_comp point.2 cfg.length LESS_EQUAL = true) then
    false
  else
    shape.all (fun seg => points_on_same_side_of_line_segment center point seg)

/-- Inner `for j in range(i+1, ...)` loop of
`archipack_floor.corner_points_from_boundaries`: intersect segment `s` with
each later segment, appending fresh in-shape intersection points to `out`. -/
def cornerPointsInner (cfg : FloorCfg) (s : Seg) (shape : List Seg) (center : ℚ × ℚ) :
    List Seg → List (ℚ × ℚ) → List (ℚ × ℚ)
  | [], out => out
  | t :: rest, out =>
    let out2 :=
      match point_of_intersection s.1 s.2 t.1 t.2 with
      | none => out
      | some pt =>
        let r := round_tuple pt
        if r ∉ out ∧ point_in_shape cfg r shape center = true then out ++ [r] else out
    cornerPointsInner cfg s shape center rest out2

/-- Outer `for i in range(0, len(segments) - 1)` loop of
`archipack_floor.corner_points_from_boundaries`. -/
def cornerPointsOuter (cfg : FloorCfg) (shape : List Seg) (center : ℚ × ℚ) :
    List Seg → List (ℚ × ℚ) → List (ℚ × ℚ)
  | [], out => out
  | s :: rest, out =>
    cornerPointsOuter cfg shape center rest (cornerPointsInner cfg s shape center rest out)

/-- `archipack_floor.corner_points_from_boundaries`. -/
def corner_points_from_boundaries (cfg : FloorCfg) (segments shape : List Seg)
    (center : ℚ × ℚ) : List (ℚ × ℚ) :=
  cornerPointsOuter cfg shape center segments []

open Real in
/-- The angle `archipack_floor.sort_corner_points` computes for a point `pt`
around `center`: `atan` of the slope (or 90 degrees in radians for a vertical
offset), plus 180 degrees in radians when `x < cx`, else plus the bare number
`360` (not converted to radians) when `y < cy`. -/
noncomputable def codeAngle (center pt : ℚ × ℚ) : ℝ :=
  let ang : ℝ :=
    if pt.1 - center.1 ≠ 0 then
      arctan (((pt.2 : ℝ) - (center.2 : ℝ)) / ((pt.1 : ℝ) - (center.1 : ℝ)))
    else π / 2
  if pt.1 < center.1 then ang + π
  else if pt.2 < center.2 then ang + 360
  else ang

open Real in
/-- The true polar angle of `pt` around `center`, in `[0, 2*pi)` — the
mathematical reading of "counter-clockwise by strictly increasing angle". -/
noncomputable def polarAngle (center pt : ℚ × ℚ) : ℝ :=
  if pt.1 = center.1 then
    (if pt.2 < center.2 then 3 * π / 2 else π / 2)
  else
    let r : ℝ := (((pt.2 : ℝ) - (center.2 : ℝ)) / ((pt.1 : ℝ) - (center.1 : ℝ)))
    if pt.1 < center.1 then arctan r + π
    else if pt.2 < center.2 then arctan r + 2 * π
    else arctan r

/-- The Python insertion scan `i = 0; for pos in ...: if a > l[pos][0]: i = pos+1`
of `sort_corner_points`, as a forward loop carrying `pos` and `i`. -/
noncomputable def pyInsertIdxAux (a : ℝ) : List (ℝ × (ℚ × ℚ)) → ℕ → ℕ → ℕ
  | [], _, i => i
  | b :: t, pos, i => pyInsertIdxAux a t (pos + 1) (if b.1 < a then pos + 1 else i)

/-- The index the Python scan inserts an angle-`a` entry at. -/
noncomputable def pyInsertIdx (a : ℝ) (l : List (ℝ × (ℚ × ℚ))) : ℕ :=
  pyInsertIdxAux a l 0 0

/-- The `for pt in unsorted: ... sorted_.insert(i, pt)` insertion loop of
`archipack_floor.sort_corner_points`. -/
noncomputable def sortInsertLoop :
    List (ℝ × (ℚ × ℚ)) → List (ℝ × (ℚ × ℚ)) → List (ℝ × (ℚ × ℚ))
  | [], acc => acc
  | x :: rest, acc => sortInsertLoop rest (acc.insertIdx (pyInsertIdx x.1 acc) x)

/-- `archipack_floor.sort_corner_points`. -/
noncomputable def sort_corner_points (points : List (ℚ × ℚ)) (center : ℚ × ℚ) :
    List (ℚ × ℚ) :=
  (sortInsertLoop (points.map (fun pt => (codeAngle center pt, pt))) []).map (fun x => x.2)

/-- `archipack_floor.add_board_from_boundaries`: clipped-prism builder used by
the angled patterns (herringbone, hexagon). -/
noncomputable def add_board_from_boundaries (cfg : FloorCfg) (st : MeshState)
    (shape : List Seg) (th : ℚ) (mat_id : ℕ) : MeshState :=
  let center : ℚ × ℚ :=
    if shape.length ≠ 0 then
      round_tuple
        ((shape.map (fun s => s.1.1 + s.2.1)).sum / (2 * shape.length),
         (shape.map (fun s => s.1.2 + s.2.2)).sum / (2 * shape.length))
    else (0, 0)
  let outer_boundaries : List Seg :=
    [((0, 0), (0, cfg.length)), ((0, 0), (cfg.width, 0)),
     ((cfg.width, 0), (cfg.width, cfg.length)), ((cfg.width, cfg.length), (0, cfg.length))]
  let corners := corner_points_from_boundaries cfg (outer_boundaries ++ shape) shape center
  if corners.length < 3 then st
  else
    let points_center : ℚ × ℚ :=
      ((corners.map (fun c => c.1)).sum / corners.length,
       (corners.map (fun c => c.2)).sum / corners.length)
    let points := sort_corner_points corners points_center
    let p := st.vs.length
    let n := points.length
    let newVs := points.flatMap (fun pt => [(pt.1, pt.2, (0 : ℚ)), (pt.1, pt.2, th)])
    let sides := (List.range (n - 1)).map
      (fun i => [p + 2 * i, p + 2 * i + 2, p + 2 * i + 3, p + 2 * i + 1])
    let lastSide := [p + 2 * (n - 1), p, p + 1, p + 2 * (n - 1) + 1]
    let top_face := ((List.range n).map (fun i => p + 2 * i)).reverse
    let bottom_face := (List.range n).map (fun i => p + 2 * i + 1)
    let newFs := sides ++ [lastSide, top_face, bottom_face]
    { st with
      vs := st.vs ++ newVs,
      fs := st.fs ++ newFs,
      ms := st.ms ++ List.replicate ((st.fs ++ newFs).length - st.fs.length) mat_id }

open Real in
/-- `archipack_floor.rotate_point` (angle in degrees by default; note the
minus sign in front of the `y*cos` contribution to the new y). -/
noncomputable def rotate_point (point pivot : ℝ × ℝ) (angle : ℝ) (degrees : Bool) : ℝ × ℝ :=
  let a := if degrees = true then angle * π / 180 else angle
  let x := point.1 - pivot.1
  let y := point.2 - pivot.2
  (x * cos a - y * sin a + pivot.1, x * sin a - y * cos a + pivot.2)

/-- The mesh-buffer invariant of the spec: every face has at least three
vertex indices, all of them below the vertex-buffer length, and the
material-id buffer is exactly as long as the face buffer. -/
def meshInv (st : MeshState) : Prop :=
  (∀ f ∈ st.fs, 3 ≤ f.length ∧ ∀ i ∈ f, i < st.vs.length) ∧ st.ms.length = st.fs.length

/-- Concrete tile configuration of the spec's tile test property:
`width=1, length=1, tile_width=0.3, tile_length=0.3, spacing=0`,
fixed `offset=0` (`random_offset` off), `thickness=1`, `mortar_depth=1/4`,
all variance flags off.  Fields follow `FloorCfg` order. -/
def cfg1 : FloorCfg :=
  ⟨1, 1, 0, 1, false, 25, mkRat 3 20, false, 50, 0, 1, 1, false, 50, 2, 0, 4,
   mkRat 3 10, mkRat 3 10, mkRat 1 4, false, 0, 50⟩

/-- Concrete wood configuration of the spec's wood test property:
`width=1.2, length=0.6, board_width=0.15, board_length=0.6`, zero spacing,
every variance flag off. -/
def cfg8 : FloorCfg :=
  ⟨mkRat 6 5, mkRat 3 5, 0, 1, false, 25, mkRat 3 20, false, 50, 0, mkRat 3 5, mkRat 3 5,
   false, 50, 2, 0, 4, mkRat 3 10, mkRat 3 10, mkRat 1 4, false, 0, 50⟩

/-- A concrete oracle stream for the pseudo-random source (never consulted
when every variance flag is off). -/
def rs0 : ℕ → ℚ := fun _ => 0

/-! ## Helper lemmas -/

theorem rough_comp_EQUAL_eq (a b : ℚ) : rough_comp a b EQUAL = isclose a b := by
  cases hc : isclose a b <;>
    simp [rough_comp, EQUAL, NOT_EQUAL, LESS_EQUAL, GREATER_EQUAL, LESS, GREATER, hc]

theorem isclose_self (a : ℚ) : isclose a a = true := by
  simp only [isclose, decide_eq_true_eq, sub_self, abs_zero]
  exact le_max_of_le_right (by norm_num [SLOP])

theorem rough_comp_GE_eq (a b : ℚ) :
    rough_comp a b GREATER_EQUAL = (isclose a b || decide (b < a)) := by
  cases hc : isclose a b <;>
    cases hlt : decide (b < a) <;>
      simp_all [rough_comp, EQUAL, NOT_EQUAL, LESS_EQUAL, GREATER_EQUAL, LESS, GREATER]

theorem rough_comp_LE_eq (a b : ℚ) :
    rough_comp a b LESS_EQUAL = (isclose a b || decide (a < b)) := by
  cases hc : isclose a b <;>
    cases hlt : decide (a < b) <;>
      simp_all [rough_comp, EQUAL, NOT_EQUAL, LESS_EQUAL, GREATER_EQUAL, LESS, GREATER]

/-! ## C7 — `rough_comp` equality semantics -/

/-- C7, counterexample: the claim says `rough_comp(a, b, EQUAL)` is true
exactly when `|a-b| <= 0.001`, and in particular that
`rough_comp(x, x+2*eps, EQUAL)` is always false.  At `x = 10^7` the
`math.isclose` relative tolerance (default `1e-9`) dominates: the call
returns true although `|a-b| = 0.002 > 0.001`. -/
theorem c7_counterexample :
    rough_comp 10000000 (10000000 + 2 * SLOP) EQUAL = true ∧
    ¬ (|(10000000 : ℚ) - (10000000 + 2 * SLOP)| ≤ SLOP) := by
  have e1 : (10000000 : ℚ) - (10000000 + 2 * (1 / 1000)) = -(1 / 500) := by norm_num
  constructor
  · rw [rough_comp_EQUAL_eq]
    simp only [isclose, decide_eq_true_eq, SLOP]
    rw [e1, abs_neg, abs_of_nonneg (show (0 : ℚ) ≤ 1 / 500 by norm_num),
      abs_of_nonneg (show (0 : ℚ) ≤ 10000000 by norm_num),
      abs_of_nonneg (show (0 : ℚ) ≤ 10000000 + 2 * (1 / 1000) by norm_num)]
    apply le_max_of_le_left
    rw [max_eq_right (by norm_num)]
    norm_num
  · simp only [SLOP]
    rw [e1, abs_neg, abs_of_nonneg (show (0 : ℚ) ≤ 1 / 500 by norm_num)]
    norm_num

/-- C7, amended: `rough_comp(a, b, EQUAL)` is true exactly when
`|a-b| <= max(1e-9 * max(|a|,|b|), 0.001)` (the `math.isclose` criterion with
`abs_tol = SLOP` and the default relative tolerance); `rough_comp(x, x, EQUAL)`
is true for every `x`, and `rough_comp(x, x+2*eps, EQUAL)` is false for every
`x` of floor-sized magnitude (`|x| <= 10^5`). -/
theorem c7_rough_comp (a b x : ℚ) (hx : |x| ≤ 100000) :
    (rough_comp a b EQUAL = true ↔
      |a - b| ≤ max ((1 / 1000000000) * max |a| |b|) SLOP) ∧
    rough_comp x x EQUAL = true ∧
    rough_comp x (x + 2 * SLOP) EQUAL = false := by
  refine ⟨?_, ?_, ?_⟩
  · rw [rough_comp_EQUAL_eq]
    simp [isclose]
  · rw [rough_comp_EQUAL_eq, isclose_self]
  · rw [rough_comp_EQUAL_eq]
    simp only [isclose, decide_eq_false_iff_not, not_le]
    have h1 : |x - (x + 2 * SLOP)| = 2 * SLOP := by
      rw [abs_sub_comm]
      rw [show x + 2 * SLOP - x = 2 * SLOP by ring]
      rw [abs_of_nonneg (by norm_num [SLOP])]
    rw [h1]
    have h2 : |x + 2 * SLOP| ≤ |x| + 2 * SLOP := by
      have habs : |2 * SLOP| = 2 * SLOP := abs_of_nonneg (by norm_num [SLOP])
      calc |x + 2 * SLOP| ≤ |x| + |2 * SLOP| := abs_add x (2 * SLOP)
        _ = |x| + 2 * SLOP := by rw [habs]
    have h3 : max |x| |x + 2 * SLOP| ≤ 100000 + 2 * SLOP := by
      apply max_le (le_trans hx (by norm_num [SLOP]))
      exact le_trans h2 (by linarith)
    apply max_lt
    · calc (1 / 1000000000) * max |x| |x + 2 * SLOP|
          ≤ (1 / 1000000000) * (100000 + 2 * SLOP) := by
            apply mul_le_mul_of_nonneg_left h3 (by norm_num)
        _ < 2 * SLOP := by norm_num [SLOP]
    · norm_num [SLOP]

/-- C7, witness for `c7_rough_comp` at `a = 5`, `b = 3`, `x = 7`. -/
theorem c7_rough_comp_witness :
    |(7 : ℚ)| ≤ 100000 ∧
    ((rough_comp 5 3 EQUAL = true ↔
        |(5 : ℚ) - 3| ≤ max ((1 / 1000000000) * max |(5 : ℚ)| |(3 : ℚ)|) SLOP) ∧
      rough_comp 7 7 EQUAL = true ∧
      rough_comp 7 (7 + 2 * SLOP) EQUAL = false) :=
  ⟨by norm_num, c7_rough_comp 5 3 7 (by norm_num)⟩

/-! ## C4 — `add_cube` clip guard -/

/-- C4, counterexample: the claim says a clipped `add_cube` call whose origin
lies outside `[0,width) x [0,length)` — including `x < 0` — emits nothing.
With `width = length = 1`, the call at origin `(-1, 0)` emits a full cuboid
(8 vertices) because the guard only checks `x >= width` / `y >= length`. -/
theorem c4_counterexample :
    (-1 : ℚ) < 0 ∧ (add_cube cfg1 emptyMesh (-1) 0 0 1 1 1 true 0).vs.length = 8 :=
  ⟨by norm_num, of_decide_eq_true (by with_unfolding_all rfl)⟩

/-- C4, amended: a clipped `add_cube` call is a no-op exactly when the origin
lies beyond the far edges, i.e. `x >= width` or `y >= length`; origins with
negative coordinates are not rejected. -/
theorem c4_clip_noop_iff (cfg : FloorCfg) (st : MeshState) (x y z w l t : ℚ) (m : ℕ) :
    add_cube cfg st x y z w l t true m = st ↔ (cfg.width ≤ x ∨ cfg.length ≤ y) := by
  by_cases h : cfg.width ≤ x ∨ cfg.length ≤ y
  · simp [add_cube, h]
  · simp only [add_cube, h, and_false, if_false, iff_false]
    intro heq
    have h2 := congrArg (fun s => s.vs.length) heq
    simp at h2

/-! ## C3 — grout slab position -/

/-- C3, counterexample: the claim says the grout slab spans
`z in [thickness - mortar_depth, thickness]`, so every slab vertex would have
`z >= thickness - mortar_depth`.  With `thickness = 1`, `mortar_depth = 1/4`
the emitted slab has vertices at `z = 0 < 3/4`. -/
theorem c3_counterexample :
    ¬ (∀ v ∈ (tile_grout cfg1 emptyMesh).vs, cfg1.thickness - cfg1.mortar_depth ≤ v.2.2) :=
  of_decide_eq_true (by with_unfolding_all rfl)

/-- C3, amended: for every configuration with positive extents, the grout slab
emitted before the tile pattern is a single full-rectangle cuboid with
material slot 1 whose bottom face lies at `z = 0` and whose z-extent is
`thickness - mortar_depth` (it spans `z in [0, thickness - mortar_depth]`). -/
theorem c3_grout_slab (cfg : FloorCfg) (st : MeshState)
    (hw : 0 < cfg.width) (hl : 0 < cfg.length) :
    tile_grout cfg st =
      { st with
        vs := st.vs ++
          [(0, 0, 0), (0, 0, cfg.thickness - cfg.mortar_depth),
           (cfg.width, 0, 0), (cfg.width, 0, cfg.thickness - cfg.mortar_depth),
           (0, cfg.length, 0), (0, cfg.length, cfg.thickness - cfg.mortar_depth),
           (cfg.width, cfg.length, 0), (cfg.width, cfg.length, cfg.thickness - cfg.mortar_depth)],
        fs := st.fs ++ cubeFaces st.vs.length,
        ms := st.ms ++ List.replicate 6 1 } := by
  have hg : ¬ (true = true ∧ (cfg.width ≤ 0 ∨ cfg.length ≤ 0)) := by
    simp [not_le.mpr hw, not_le.mpr hl]
  have hw2 : ¬ (true = true ∧ cfg.width < 0 + cfg.width) := by simp
  have hl2 : ¬ (true = true ∧ cfg.length < 0 + cfg.length) := by simp
  unfold tile_grout add_cube
  rw [if_neg hg]
  simp only [if_neg hw2, if_neg hl2]
  simp

/-- C3, witness for `c3_grout_slab` at `cfg1` (`width = length = 1`,
`thickness = 1`, `mortar_depth = 1/4`) applied to the empty accumulator. -/
theorem c3_grout_slab_witness :
    ((0 : ℚ) < cfg1.width ∧ (0 : ℚ) < cfg1.length) ∧
    tile_grout cfg1 emptyMesh =
      { emptyMesh with
        vs := emptyMesh.vs ++
          [(0, 0, 0), (0, 0, cfg1.thickness - cfg1.mortar_depth),
           (cfg1.width, 0, 0), (cfg1.width, 0, cfg1.thickness - cfg1.mortar_depth),
           (0, cfg1.length, 0), (0, cfg1.length, cfg1.thickness - cfg1.mortar_depth),
           (cfg1.width, cfg1.length, 0),
           (cfg1.width, cfg1.length, cfg1.thickness - cfg1.mortar_depth)],
        fs := emptyMesh.fs ++ cubeFaces emptyMesh.vs.length,
        ms := emptyMesh.ms ++ List.replicate 6 1 } :=
  have h1 : (0 : ℚ) < cfg1.width := of_decide_eq_true (by with_unfolding_all rfl)
  have h2 : (0 : ℚ) < cfg1.length := of_decide_eq_true (by with_unfolding_all rfl)
  ⟨⟨h1, h2⟩, c3_grout_slab cfg1 emptyMesh h1 h2⟩

/-! ## C8 — regular wood board count -/

/-- C8, counterexample: the claim says the configuration
`width=1.2, length=0.6, board_width=0.15, board_length=0.6` with no variance
and zero spacing yields exactly 4 boards (24 faces).  The generator completes
and emits 48 faces (8 boards), not 24. -/
theorem c8_counterexample :
    (wood_regular cfg8 rs0 20 emptyMesh).map (fun st => st.fs.length) = some 48 ∧
    (48 : ℕ) ≠ 4 * 6 := by
  constructor
  · with_unfolding_all rfl
  · decide

/-- C8, amended: the regular wood generator on
`width=1.2, length=0.6, board_width=0.15, board_length=0.6`, no variance and
zero spacing, produces exactly 8 boards (8 columns of one full-length board),
each a full hexahedron: 64 vertices in total and the 48 faces are exactly
eight `add_cube` face blocks over consecutive groups of 8 vertices, all with
material id 0. -/
theorem c8_wood_regular :
    (wood_regular cfg8 rs0 20 emptyMesh).map
        (fun st => (st.vs.length, st.fs, st.ms)) =
      some (64, (List.range 8).flatMap (fun i => cubeFaces (8 * i)),
        List.replicate 48 0) := by
  with_unfolding_all rfl

/-! ## C10 — `rotate_point` -/

open Real in
/-- C10: for points whose y-coordinate equals the pivot's,
`rotate_point((px + r, py), (px, py), theta)` is the correct counter-clockwise
rotation `(px + r cos theta, py + r sin theta)` (theta in degrees) — the only
way `tile_hexagon` uses it; for a point with y differing from the pivot's the
function is not a rotation: rotating `(0, 1)` around the origin by 0 degrees
yields `(0, -1)`, not the identity. -/
theorem c10_rotate_point :
    (∀ px py r θ : ℝ, rotate_point (px + r, py) (px, py) θ true =
        (px + r * Real.cos (θ * π / 180), py + r * Real.sin (θ * π / 180))) ∧
    rotate_point (0, 1) (0, 0) 0 true = (0, -1) ∧
    rotate_point (0, 1) (0, 0) 0 true ≠ ((0 : ℝ), (1 : ℝ)) := by
  have key : rotate_point ((0 : ℝ), (1 : ℝ)) (0, 0) 0 true = (0, -1) := by
    simp [rotate_point]
  refine ⟨?_, key, ?_⟩
  · intro px py r θ
    simp only [rotate_point, if_pos rfl]
    rw [Prod.ext_iff]
    constructor
    · simp only [if_true]
      ring_nf
    · simp only [if_true]
      ring_nf
  · rw [key]
    intro h
    have h2 := congrArg Prod.snd h
    norm_num at h2

/-! ## C1, C2 — the tile-regular generation pass with offset 0 and spacing 0 -/

theorem tileRegularX_row_offset_stuck (rs : ℕ → ℚ) (cur_y : ℚ) :
    ∀ fuel (st : MeshState),
      tileRegularX cfg1 rs 0 cur_y (mkRat 3 10) true fuel 0 st = none := by
  intro fuel
  induction fuel with
  | zero => intro st; rfl
  | succ n ih =>
    intro st
    rw [tileRegularX]
    have hcond : (0 : ℚ) < cfg1.width := of_decide_eq_true (by with_unfolding_all rfl)
    rw [if_pos hcond]
    have h1 : ¬ ((0 : ℚ) < cfg1.width ∧ cfg1.width < 0 + cfg1.tile_width) := by
      intro h
      exact absurd h.2 (of_decide_eq_true (by with_unfolding_all rfl))
    have h2 : (0 : ℚ) = 0 ∧ true = true ∧ cfg1.random_offset = false :=
      ⟨rfl, rfl, of_decide_eq_true (by with_unfolding_all rfl)⟩
    rw [if_neg h1, if_pos h2]
    have harg : (0 : ℚ) + cfg1.tile_width * 0 + cfg1.spacing = 0 := by
      have hsp : cfg1.spacing = 0 := of_decide_eq_true (by with_unfolding_all rfl)
      rw [hsp, mul_zero, add_zero, add_zero]
    simp only [harg]
    exact ih _

theorem tileRegular_cfg1_none (rs : ℕ → ℚ) (fuel : ℕ) (st : MeshState) :
    tile_regular cfg1 rs fuel st = none := by
  have ho : (if cfg1.offset ≠ 0 then cfg1.offset / 100 else 0) = 0 := by
    have hoff : cfg1.offset = 0 := rfl
    rw [hoff]
    norm_num
  show tileRegularY cfg1 rs (if cfg1.offset ≠ 0 then cfg1.offset / 100 else 0) fuel 0 false st
      = none
  rw [ho]
  cases fuel with
  | zero => rfl
  | succ n =>
    rw [tileRegularY]
    have hy0 : (0 : ℚ) < cfg1.length := of_decide_eq_true (by with_unfolding_all rfl)
    rw [if_pos hy0]
    have htl : ¬ ((0 : ℚ) < cfg1.length ∧ cfg1.length < 0 + cfg1.tile_length) := by
      intro h
      exact absurd h.2 (of_decide_eq_true (by with_unfolding_all rfl))
    simp only [if_neg htl]
    cases hX : tileRegularX cfg1 rs 0 0 cfg1.tile_length false n 0 st with
    | none => rfl
    | some st2 =>
      show tileRegularY cfg1 rs 0 n (0 + cfg1.tile_length + cfg1.spacing) true st2 = none
      have harg : (0 : ℚ) + cfg1.tile_length + cfg1.spacing = mkRat 3 10 := by
        with_unfolding_all rfl
      rw [harg]
      cases n with
      | zero => rfl
      | succ m =>
        rw [tileRegularY]
        have hy1 : (mkRat 3 10 : ℚ) < cfg1.length := of_decide_eq_true (by with_unfolding_all rfl)
        rw [if_pos hy1]
        have htl2 : ¬ ((mkRat 3 10 : ℚ) < cfg1.length ∧
            cfg1.length < mkRat 3 10 + cfg1.tile_length) := by
          intro h
          exact absurd h.2 (of_decide_eq_true (by with_unfolding_all rfl))
        simp only [if_neg htl2]
        have hproj : cfg1.tile_length = mkRat 3 10 := rfl
        rw [hproj, tileRegularX_row_offset_stuck rs (mkRat 3 10) m st2]

/-- C1: with `width=1, length=1, tile_width=0.3, tile_length=0.3, spacing=0`,
fixed `offset=0` and `random_offset` off, the grout slab does come out as one
cuboid (8 vertices, 6 faces, six material ids 1), but the regular tile layer
never completes: in the second row the offset branch sets
`tw2 = tile_width * (offset/100) = 0`, the cursor advance `tw2 + spacing` is
zero, and the inner loop runs forever (no fuel bound suffices), so the pass
never emits the claimed 16 tiles. -/
theorem c1_tile_bug :
    ((tile_grout cfg1 emptyMesh).vs.length = 8 ∧
      (tile_grout cfg1 emptyMesh).fs.length = 6 ∧
      (tile_grout cfg1 emptyMesh).ms = List.replicate 6 1) ∧
    ∀ (rs : ℕ → ℚ) (fuel : ℕ),
      tile_regular cfg1 rs fuel (tile_grout cfg1 emptyMesh) = none :=
  ⟨⟨of_decide_eq_true (by with_unfolding_all rfl),
    of_decide_eq_true (by with_unfolding_all rfl),
    of_decide_eq_true (by with_unfolding_all rfl)⟩,
   fun rs fuel => tileRegular_cfg1_none rs fuel _⟩

/-- C2: the configuration `cfg1` lies within every documented bound
(positive extents and unit dimensions, `spacing = 0 >= 0`,
`offset = 0` in `[0,100]`), yet the tile-regular generation pass dispatched
for it never terminates: for every fuel bound and every starting buffer state
the loop fails to complete, because the second row's first-tile width is
`tile_width * (offset/100) = 0` and the cursor stops advancing. -/
theorem c2_nontermination :
    ∀ (rs : ℕ → ℚ) (fuel : ℕ) (st : MeshState), tile_regular cfg1 rs fuel st = none :=
  fun rs fuel st => tileRegular_cfg1_none rs fuel st

/-! ## C6 — mesh-buffer invariant -/

theorem pyInsertIdxAux_le (a : ℝ) :
    ∀ (l : List (ℝ × (ℚ × ℚ))) (pos i : ℕ), pyInsertIdxAux a l pos i ≤ max i (pos + l.length) := by
  intro l
  induction l with
  | nil =>
    intro pos i
    simp only [pyInsertIdxAux, List.length_nil, Nat.add_zero]
    exact le_max_left i pos
  | cons b t ih =>
    intro pos i
    rw [pyInsertIdxAux]
    by_cases hb : b.1 < a
    · rw [if_pos hb]
      have h2 := ih (pos + 1) (pos + 1)
      simp only [List.length_cons]
      omega
    · rw [if_neg hb]
      have h2 := ih (pos + 1) i
      simp only [List.length_cons]
      omega

theorem pyInsertIdx_le_length (a : ℝ) (l : List (ℝ × (ℚ × ℚ))) :
    pyInsertIdx a l ≤ l.length := by
  have h := pyInsertIdxAux_le a l 0 0
  simpa [pyInsertIdx] using h

theorem sortInsertLoop_length :
    ∀ (input acc : List (ℝ × (ℚ × ℚ))),
      (sortInsertLoop input acc).length = input.length + acc.length := by
  intro input
  induction input with
  | nil => intro acc; simp [sortInsertLoop]
  | cons x rest ih =>
    intro acc
    rw [sortInsertLoop, ih]
    rw [List.length_insertIdx _ _ (pyInsertIdx_le_length x.1 acc)]
    simp only [List.length_cons]
    omega

theorem sort_corner_points_length (points : List (ℚ × ℚ)) (center : ℚ × ℚ) :
    (sort_corner_points points center).length = points.length := by
  simp [sort_corner_points, sortInsertLoop_length]

theorem flatMap_pair_length (th : ℚ) (points : List (ℚ × ℚ)) :
    (points.flatMap (fun pt => [(pt.1, pt.2, (0 : ℚ)), (pt.1, pt.2, th)])).length
      = 2 * points.length := by
  induction points with
  | nil => simp
  | cons p t ih =>
    rw [List.flatMap_cons]
    simp only [List.length_append, List.length_cons, List.length_nil, ih]
    omega

theorem meshInv_append (st : MeshState) (newVs : List (ℚ × ℚ × ℚ)) (newFs : List (List ℕ))
    (mat : ℕ) (h : meshInv st)
    (hf : ∀ f ∈ newFs, 3 ≤ f.length ∧ ∀ i ∈ f, i < st.vs.length + newVs.length) :
    meshInv
      { st with
        vs := st.vs ++ newVs
        fs := st.fs ++ newFs
        ms := st.ms ++ List.replicate ((st.fs ++ newFs).length - st.fs.length) mat } := by
  constructor
  · intro f hfm
    rw [List.mem_append] at hfm
    rcases hfm with hfm | hfm
    · obtain ⟨h3, hidx⟩ := h.1 f hfm
      refine ⟨h3, fun i hi => ?_⟩
      simp only [List.length_append]
      exact lt_of_lt_of_le (hidx i hi) (Nat.le_add_right _ _)
    · obtain ⟨h3, hidx⟩ := hf f hfm
      refine ⟨h3, fun i hi => ?_⟩
      simp only [List.length_append]
      exact hidx i hi
  · simp only [List.length_append, List.length_replicate, h.2]
    omega

theorem meshInv_add_cube (cfg : FloorCfg) (st : MeshState) (x y z w l t : ℚ)
    (clip : Bool) (m : ℕ) (h : meshInv st) :
    meshInv (add_cube cfg st x y z w l t clip m) := by
  unfold add_cube
  split
  · exact h
  · constructor
    · intro f hfm
      rw [List.mem_append] at hfm
      rcases hfm with hfm | hfm
      · obtain ⟨h3, hidx⟩ := h.1 f hfm
        refine ⟨h3, fun i hi => ?_⟩
        simp only [List.length_append, List.length_cons, List.length_nil]
        have := hidx i hi
        omega
      · simp only [cubeFaces, List.mem_cons, List.not_mem_nil, or_false] at hfm
        rcases hfm with rfl | rfl | rfl | rfl | rfl | rfl <;>
          refine ⟨by norm_num, fun i hi => ?_⟩ <;>
            simp only [List.mem_cons, List.not_mem_nil, or_false] at hi <;>
            simp only [List.length_append, List.length_cons, List.length_nil] <;>
            rcases hi with rfl | rfl | rfl | rfl <;> omega
    · simp only [cubeFaces, List.length_append, List.length_replicate, List.length_cons,
        List.length_nil, h.2]

theorem meshInv_board_block (st : MeshState) (pts : List (ℚ × ℚ)) (th : ℚ) (mat : ℕ)
    (h : meshInv st) (hn : 3 ≤ pts.length) :
    meshInv
      (let p := st.vs.length
       let n := pts.length
       let newVs := pts.flatMap (fun pt => [(pt.1, pt.2, (0 : ℚ)), (pt.1, pt.2, th)])
       let sides := (List.range (n - 1)).map
         (fun i => [p + 2 * i, p + 2 * i + 2, p + 2 * i + 3, p + 2 * i + 1])
       let lastSide := [p + 2 * (n - 1), p, p + 1, p + 2 * (n - 1) + 1]
       let top_face := ((List.range n).map (fun i => p + 2 * i)).reverse
       let bottom_face := (List.range n).map (fun i => p + 2 * i + 1)
       let newFs := sides ++ [lastSide, top_face, bottom_face]
       { st with
         vs := st.vs ++ newVs
         fs := st.fs ++ newFs
         ms := st.ms ++ List.replicate ((st.fs ++ newFs).length - st.fs.length) mat }) := by
  refine meshInv_append st _ _ mat h ?_
  intro f hfm
  rw [flatMap_pair_length]
  rw [List.mem_append] at hfm
  rcases hfm with hfm | hfm
  · rw [List.mem_map] at hfm
    obtain ⟨i, hi, rfl⟩ := hfm
    rw [List.mem_range] at hi
    refine ⟨by norm_num, fun j hj => ?_⟩
    simp only [List.mem_cons, List.not_mem_nil, or_false] at hj
    rcases hj with rfl | rfl | rfl | rfl <;> omega
  · simp only [List.mem_cons, List.not_mem_nil, or_false] at hfm
    rcases hfm with rfl | rfl | rfl
    · refine ⟨by norm_num, fun j hj => ?_⟩
      simp only [List.mem_cons, List.not_mem_nil, or_false] at hj
      rcases hj with rfl | rfl | rfl | rfl <;> omega
    · constructor
      · rw [List.length_reverse, List.length_map, List.length_range]
        exact hn
      · intro j hj
        rw [List.mem_reverse, List.mem_map] at hj
        obtain ⟨i, hi, rfl⟩ := hj
        rw [List.mem_range] at hi
        omega
    · constructor
      · rw [List.length_map, List.length_range]
        exact hn
      · intro j hj
        rw [List.mem_map] at hj
        obtain ⟨i, hi, rfl⟩ := hj
        rw [List.mem_range] at hi
        omega

theorem meshInv_add_board (cfg : FloorCfg) (st : MeshState) (shape : List Seg) (th : ℚ)
    (mat : ℕ) (h : meshInv st) :
    meshInv (add_board_from_boundaries cfg st shape th mat) := by
  simp only [add_board_from_boundaries]
  split <;> split
  any_goals exact h
  all_goals
    rename_i hge
    refine meshInv_board_block st _ th mat h ?_
    rw [sort_corner_points_length]
    omega

/-- C6: the buffer invariant — every face has at least 3 vertex indices, all
below the vertex-buffer length, and the material-id buffer is exactly as long
as the face buffer — is preserved by both buffer-mutating operations,
`add_cube` and `add_board_from_boundaries`, for all arguments; since a
generation pass starts from empty buffers (where the invariant holds
trivially) and only mutates through these two operations, every generated
mesh satisfies it. -/
theorem c6_mesh_invariant (cfg : FloorCfg) (st : MeshState) (x y z w l t : ℚ) (clip : Bool)
    (m : ℕ) (shape : List Seg) (th : ℚ) (m2 : ℕ) (h : meshInv st) :
    meshInv (add_cube cfg st x y z w l t clip m) ∧
    meshInv (add_board_from_boundaries cfg st shape th m2) :=
  ⟨meshInv_add_cube cfg st x y z w l t clip m h, meshInv_add_board cfg st shape th m2 h⟩

/-- C6, witness: the invariant holds for the empty accumulator and is
preserved by a concrete `add_cube` call and a concrete
`add_board_from_boundaries` call on `cfg1`. -/
theorem c6_mesh_invariant_witness :
    meshInv emptyMesh ∧
    (meshInv (add_cube cfg1 emptyMesh 0 0 0 1 1 1 true 0) ∧
      meshInv (add_board_from_boundaries cfg1 emptyMesh [] 1 0)) :=
  have h0 : meshInv emptyMesh := ⟨fun f hf => absurd hf (by simp [emptyMesh]), rfl⟩
  ⟨h0, c6_mesh_invariant cfg1 emptyMesh 0 0 0 1 1 1 true 0 [] 1 0 h0⟩

/-! ## C9 — vertical segments in `points_on_same_side_of_line_segment` -/

theorem vertical_opposite_sides_false (sx sy1 sy2 : ℚ) (p1 p2 : ℚ × ℚ)
    (h1 : isclose p1.1 sx = false) (h2 : isclose p2.1 sx = false)
    (hor : (sx < p1.1 ∧ p2.1 < sx) ∨ (p1.1 < sx ∧ sx < p2.1)) :
    points_on_same_side_of_line_segment p1 p2 ((sx, sy1), (sx, sy2)) = false := by
  unfold points_on_same_side_of_line_segment
  have hvert : rough_comp ((sx, sy1) : ℚ × ℚ).1 ((sx, sy2) : ℚ × ℚ).1 EQUAL = true := by
    rw [rough_comp_EQUAL_eq]
    exact isclose_self sx
  rw [if_pos hvert]
  have hGE : ∀ q : ℚ, isclose q sx = false → q < sx →
      rough_comp q sx GREATER_EQUAL = false := by
    intro q hq hlt
    rw [rough_comp_GE_eq, hq]
    simp [not_lt.mpr (le_of_lt hlt)]
  have hLE : ∀ q : ℚ, isclose q sx = false → sx < q →
      rough_comp q sx LESS_EQUAL = false := by
    intro q hq hlt
    rw [rough_comp_LE_eq, hq]
    simp [not_lt.mpr (le_of_lt hlt)]
  rcases hor with ⟨ha, hb⟩ | ⟨ha, hb⟩
  · rw [if_neg, if_neg]
    · intro hcon
      rw [hLE p1.1 h1 ha] at hcon
      exact absurd hcon.1 (by simp)
    · intro hcon
      rw [hGE p2.1 h2 hb] at hcon
      exact absurd hcon.2 (by simp)
  · rw [if_neg, if_neg]
    · intro hcon
      rw [hLE p2.1 h2 hb] at hcon
      exact absurd hcon.2 (by simp)
    · intro hcon
      rw [hGE p1.1 h1 ha] at hcon
      exact absurd hcon.1 (by simp)

/-- C9, counterexample (the claim is an existential; we prove its negation):
there is no vertical segment with two points strictly on opposite sides of
its line, beyond the comparison tolerance, for which
`points_on_same_side_of_line_segment` returns true.  The two y-value
comparisons are `elif` arms of the outer vertical-line test, so control never
"falls through" to them for a vertical segment: the function returns false. -/
theorem c9_counterexample :
    ¬ ∃ (sx sy1 sy2 : ℚ) (p1 p2 : ℚ × ℚ),
        isclose p1.1 sx = false ∧ isclose p2.1 sx = false ∧
        ((sx < p1.1 ∧ p2.1 < sx) ∨ (p1.1 < sx ∧ sx < p2.1)) ∧
        points_on_same_side_of_line_segment p1 p2 ((sx, sy1), (sx, sy2)) = true := by
  rintro ⟨sx, sy1, sy2, p1, p2, h1, h2, hor, htrue⟩
  rw [vertical_opposite_sides_false sx sy1 sy2 p1 p2 h1 h2 hor] at htrue
  exact absurd htrue (by simp)

/-- C9, amended: for a vertical boundary segment and two points strictly on
opposite sides of its line (each farther than the tolerance from it), the
function returns false — when neither the both-right nor the both-left
tolerant x-comparison succeeds, control does not reach the y-value
comparisons (they are `elif` arms of the outer vertical test), and the
function falls to its final `return False`. -/
theorem c9_vertical_reject (sx sy1 sy2 : ℚ) (p1 p2 : ℚ × ℚ)
    (h1 : isclose p1.1 sx = false) (h2 : isclose p2.1 sx = false)
    (hor : (sx < p1.1 ∧ p2.1 < sx) ∨ (p1.1 < sx ∧ sx < p2.1)) :
    points_on_same_side_of_line_segment p1 p2 ((sx, sy1), (sx, sy2)) = false :=
  vertical_opposite_sides_false sx sy1 sy2 p1 p2 h1 h2 hor

/-- C9, witness for `c9_vertical_reject`: segment from `(0,0)` to `(0,5)`,
points `(1,0)` and `(-1,0)`. -/
theorem c9_vertical_reject_witness :
    (isclose ((1 : ℚ), (0 : ℚ)).1 0 = false ∧ isclose ((-1 : ℚ), (0 : ℚ)).1 0 = false ∧
      (((0 : ℚ) < ((1 : ℚ), (0 : ℚ)).1 ∧ ((-1 : ℚ), (0 : ℚ)).1 < 0) ∨
        (((1 : ℚ), (0 : ℚ)).1 < 0 ∧ (0 : ℚ) < ((-1 : ℚ), (0 : ℚ)).1))) ∧
    points_on_same_side_of_line_segment (1, 0) (-1, 0) ((0, 0), (0, 5)) = false :=
  have h1 : isclose ((1 : ℚ), (0 : ℚ)).1 0 = false := by
    simp only [isclose, decide_eq_false_iff_not, not_le, SLOP]
    norm_num
  have h2 : isclose ((-1 : ℚ), (0 : ℚ)).1 0 = false := by
    simp only [isclose, decide_eq_false_iff_not, not_le, SLOP]
    norm_num
  have hor : ((0 : ℚ) < ((1 : ℚ), (0 : ℚ)).1 ∧ ((-1 : ℚ), (0 : ℚ)).1 < 0) ∨
      (((1 : ℚ), (0 : ℚ)).1 < 0 ∧ (0 : ℚ) < ((-1 : ℚ), (0 : ℚ)).1) :=
    Or.inl ⟨by norm_num, by norm_num⟩
  ⟨⟨h1, h2, hor⟩, c9_vertical_reject 0 0 5 (1, 0) (-1, 0) h1 h2 hor⟩

/-! ## C5 — `sort_corner_points` -/

open Real in
theorem codeAngle_eq_polarAngle (c p : ℚ × ℚ) (hb : ¬ (p.1 = c.1 ∧ p.2 < c.2))
    (hlow : ¬ (c.1 < p.1 ∧ p.2 < c.2)) : codeAngle c p = polarAngle c p := by
  by_cases hx : p.1 = c.1
  · have hy : ¬ p.2 < c.2 := fun hy => hb ⟨hx, hy⟩
    simp [codeAngle, polarAngle, hx, hy]
  · simp only [codeAngle, polarAngle]
    rw [if_pos (sub_ne_zero.mpr hx), if_neg hx]
    by_cases hlt : p.1 < c.1
    · rw [if_pos hlt, if_pos hlt]
    · have hgt : c.1 < p.1 := lt_of_le_of_ne (not_lt.mp hlt) (Ne.symm hx)
      have hy : ¬ p.2 < c.2 := fun hy => hlow ⟨hgt, hy⟩
      rw [if_neg hlt, if_neg hlt, if_neg hy, if_neg hy]

open Real in
theorem codeAngle_low (c p : ℚ × ℚ) (h1 : c.1 < p.1) (h2 : p.2 < c.2) :
    codeAngle c p = polarAngle c p + (360 - 2 * π) := by
  have hx : p.1 ≠ c.1 := ne_of_gt h1
  have hlt : ¬ p.1 < c.1 := not_lt.mpr (le_of_lt h1)
  simp only [codeAngle, polarAngle]
  rw [if_pos (sub_ne_zero.mpr hx), if_neg hx, if_neg hlt, if_neg hlt, if_pos h2, if_pos h2]
  ring

open Real in
theorem polarAngle_lt_of_not_low (c p : ℚ × ℚ) (hb : ¬ (p.1 = c.1 ∧ p.2 < c.2))
    (hlow : ¬ (c.1 < p.1 ∧ p.2 < c.2)) : polarAngle c p < 3 * π / 2 := by
  simp only [polarAngle]
  by_cases hx : p.1 = c.1
  · have hy : ¬ p.2 < c.2 := fun hy => hb ⟨hx, hy⟩
    rw [if_pos hx, if_neg hy]
    linarith [Real.pi_pos]
  · rw [if_neg hx]
    by_cases hlt : p.1 < c.1
    · rw [if_pos hlt]
      have h1 := Real.arctan_lt_pi_div_two
        (((p.2 : ℝ) - (c.2 : ℝ)) / ((p.1 : ℝ) - (c.1 : ℝ)))
      linarith
    · have hgt : c.1 < p.1 := lt_of_le_of_ne (not_lt.mp hlt) (Ne.symm hx)
      have hy : ¬ p.2 < c.2 := fun hy => hlow ⟨hgt, hy⟩
      rw [if_neg hlt, if_neg hy]
      have h1 := Real.arctan_lt_pi_div_two
        (((p.2 : ℝ) - (c.2 : ℝ)) / ((p.1 : ℝ) - (c.1 : ℝ)))
      linarith [Real.pi_pos]

open Real in
theorem polarAngle_gt_of_low (c p : ℚ × ℚ) (h1 : c.1 < p.1) (h2 : p.2 < c.2) :
    3 * π / 2 < polarAngle c p := by
  have hx : p.1 ≠ c.1 := ne_of_gt h1
  have hlt : ¬ p.1 < c.1 := not_lt.mpr (le_of_lt h1)
  simp only [polarAngle]
  rw [if_neg hx, if_neg hlt, if_pos h2]
  have h3 := Real.neg_pi_div_two_lt_arctan
    (((p.2 : ℝ) - (c.2 : ℝ)) / ((p.1 : ℝ) - (c.1 : ℝ)))
  linarith [Real.pi_pos]

open Real in
theorem codeAngle_lt_iff (c p q : ℚ × ℚ) (hp : ¬ (p.1 = c.1 ∧ p.2 < c.2))
    (hq : ¬ (q.1 = c.1 ∧ q.2 < c.2)) :
    (codeAngle c p < codeAngle c q ↔ polarAngle c p < polarAngle c q) := by
  by_cases lp : c.1 < p.1 ∧ p.2 < c.2 <;> by_cases lq : c.1 < q.1 ∧ q.2 < c.2
  · rw [codeAngle_low c p lp.1 lp.2, codeAngle_low c q lq.1 lq.2]
    constructor <;> intro <;> linarith
  · have hgp := polarAngle_gt_of_low c p lp.1 lp.2
    have hlq := polarAngle_lt_of_not_low c q hq lq
    rw [codeAngle_low c p lp.1 lp.2, codeAngle_eq_polarAngle c q hq lq]
    constructor <;> intro <;> linarith [Real.pi_le_four, Real.pi_pos]
  · have hlp := polarAngle_lt_of_not_low c p hp lp
    have hgq := polarAngle_gt_of_low c q lq.1 lq.2
    rw [codeAngle_eq_polarAngle c p hp lp, codeAngle_low c q lq.1 lq.2]
    constructor <;> intro <;> linarith [Real.pi_le_four, Real.pi_pos]
  · rw [codeAngle_eq_polarAngle c p hp lp, codeAngle_eq_polarAngle c q hq lq]

theorem codeAngle_ne_of_polar_ne (c p q : ℚ × ℚ) (hp : ¬ (p.1 = c.1 ∧ p.2 < c.2))
    (hq : ¬ (q.1 = c.1 ∧ q.2 < c.2)) (hne : polarAngle c p ≠ polarAngle c q) :
    codeAngle c p ≠ codeAngle c q := by
  intro h
  have h1 : ¬ polarAngle c p < polarAngle c q := fun hlt =>
    absurd ((codeAngle_lt_iff c p q hp hq).mpr hlt) (by rw [h]; exact lt_irrefl _)
  have h2 : ¬ polarAngle c q < polarAngle c p := fun hlt =>
    absurd ((codeAngle_lt_iff c q p hq hp).mpr hlt) (by rw [h]; exact lt_irrefl _)
  exact hne (le_antisymm (not_lt.mp h2) (not_lt.mp h1))

theorem pairwise_imp_mem {α : Type} {R S : α → α → Prop} :
    ∀ {l : List α}, (∀ a ∈ l, ∀ b ∈ l, R a b → S a b) → l.Pairwise R → l.Pairwise S := by
  intro l
  induction l with
  | nil => intro _ _; exact List.Pairwise.nil
  | cons a t ih =>
    intro h hp
    rw [List.pairwise_cons] at hp ⊢
    refine ⟨fun b hb => h a (by simp) b (by simp [hb]) (hp.1 b hb), ih ?_ hp.2⟩
    intro u hu v hv hr
    exact h u (by simp [hu]) v (by simp [hv]) hr

theorem chain'_imp_mem {α : Type} {R S : α → α → Prop} :
    ∀ {l : List α}, (∀ a ∈ l, ∀ b ∈ l, R a b → S a b) → l.Chain' R → l.Chain' S := by
  intro l
  induction l with
  | nil => intro _ _; exact List.chain'_nil
  | cons a t ih =>
    intro h hc
    cases t with
    | nil => exact List.chain'_singleton a
    | cons b t2 =>
      rw [List.chain'_cons] at hc ⊢
      refine ⟨h a (by simp) b (by simp) hc.1, ih ?_ hc.2⟩
      intro u hu v hv hr
      exact h u (by simp [hu]) v (by simp [hv]) hr

theorem pyInsertIdxAux_spec (a : ℝ) :
    ∀ (l : List (ℝ × (ℚ × ℚ))), l.Pairwise (fun u v => u.1 < v.1) →
      (∀ b ∈ l, b.1 ≠ a) → ∀ (pos i : ℕ),
      pyInsertIdxAux a l pos i =
        if l.countP (fun b => decide (b.1 < a)) = 0 then i
        else pos + l.countP (fun b => decide (b.1 < a)) := by
  intro l
  induction l with
  | nil => intro _ _ pos i; simp [pyInsertIdxAux]
  | cons b t ih =>
    intro hp hne pos i
    rw [List.pairwise_cons] at hp
    rw [pyInsertIdxAux]
    by_cases hb : b.1 < a
    · rw [if_pos hb]
      rw [ih hp.2 (fun y hy => hne y (List.mem_cons_of_mem b hy)) (pos + 1) (pos + 1)]
      rw [List.countP_cons_of_pos _ _ (by simpa using hb)]
      by_cases h0 : t.countP (fun u => decide (u.1 < a)) = 0
      · rw [if_pos h0, if_neg (by omega)]
        omega
      · rw [if_neg h0, if_neg (by omega)]
        omega
    · rw [if_neg hb]
      have hab : a < b.1 :=
        lt_of_le_of_ne (not_lt.mp hb) (Ne.symm (hne b (List.mem_cons_self b t)))
      have ht0 : t.countP (fun u => decide (u.1 < a)) = 0 := by
        rw [List.countP_eq_zero]
        intro y hy
        simp only [decide_eq_true_eq]
        exact not_lt.mpr (le_of_lt (lt_trans hab (hp.1 y hy)))
      rw [ih hp.2 (fun y hy => hne y (List.mem_cons_of_mem b hy)) (pos + 1) i]
      rw [List.countP_cons_of_neg _ _ (by simpa using hb), ht0]
      simp

theorem pyInsertIdx_eq_countP (a : ℝ) (l : List (ℝ × (ℚ × ℚ)))
    (hp : l.Pairwise (fun u v => u.1 < v.1)) (hne : ∀ b ∈ l, b.1 ≠ a) :
    pyInsertIdx a l = l.countP (fun b => decide (b.1 < a)) := by
  rw [pyInsertIdx, pyInsertIdxAux_spec a l hp hne 0 0]
  split
  · rename_i h
    omega
  · omega

theorem insertIdx_countP_sorted (x : ℝ × (ℚ × ℚ)) :
    ∀ (l : List (ℝ × (ℚ × ℚ))), l.Pairwise (fun u v => u.1 < v.1) →
      (∀ b ∈ l, b.1 ≠ x.1) →
      (l.insertIdx (l.countP (fun b => decide (b.1 < x.1))) x).Pairwise
          (fun u v => u.1 < v.1) ∧
        List.Perm (l.insertIdx (l.countP (fun b => decide (b.1 < x.1))) x) (x :: l) := by
  intro l
  induction l with
  | nil =>
    intro _ _
    constructor
    · simp
    · simp
  | cons b t ih =>
    intro hp hne
    rw [List.pairwise_cons] at hp
    by_cases hb : b.1 < x.1
    · rw [List.countP_cons_of_pos _ _ (by simpa using hb), List.insertIdx_succ_cons]
      obtain ⟨ihs, ihp⟩ := ih hp.2 (fun y hy => hne y (List.mem_cons_of_mem b hy))
      constructor
      · rw [List.pairwise_cons]
        refine ⟨?_, ihs⟩
        intro y hy
        rcases List.mem_cons.mp (ihp.mem_iff.mp hy) with rfl | hy3
        · exact hb
        · exact hp.1 y hy3
      · exact List.Perm.trans (ihp.cons b) (List.Perm.swap x b t)
    · have hxb : x.1 < b.1 :=
        lt_of_le_of_ne (not_lt.mp hb) (Ne.symm (hne b (List.mem_cons_self b t)))
      have hcount : (b :: t).countP (fun u => decide (u.1 < x.1)) = 0 := by
        rw [List.countP_eq_zero]
        intro y hy
        simp only [decide_eq_true_eq]
        rcases List.mem_cons.mp hy with rfl | hy2
        · exact not_lt.mpr (le_of_lt hxb)
        · exact not_lt.mpr (le_of_lt (lt_trans hxb (hp.1 y hy2)))
      rw [hcount, List.insertIdx_zero]
      constructor
      · rw [List.pairwise_cons]
        refine ⟨?_, List.pairwise_cons.mpr hp⟩
        intro y hy
        rcases List.mem_cons.mp hy with rfl | hy2
        · exact hxb
        · exact lt_trans hxb (hp.1 y hy2)
      · exact List.Perm.refl _

theorem sortInsertLoop_spec :
    ∀ (input acc : List (ℝ × (ℚ × ℚ))),
      acc.Pairwise (fun u v => u.1 < v.1) →
      (∀ x ∈ input, ∀ y ∈ acc, x.1 ≠ y.1) →
      input.Pairwise (fun u v => u.1 ≠ v.1) →
      (sortInsertLoop input acc).Pairwise (fun u v => u.1 < v.1) ∧
        List.Perm (sortInsertLoop input acc) (input ++ acc) := by
  intro input
  induction input with
  | nil => intro acc hacc _ _; exact ⟨hacc, by simp [sortInsertLoop]⟩
  | cons x rest ih =>
    intro acc hacc hcross hpair
    rw [sortInsertLoop]
    have hneacc : ∀ b ∈ acc, b.1 ≠ x.1 := fun b hb =>
      (hcross x (List.mem_cons_self x rest) b hb).symm
    rw [pyInsertIdx_eq_countP x.1 acc hacc hneacc]
    obtain ⟨hs, hperm⟩ := insertIdx_countP_sorted x acc hacc hneacc
    rw [List.pairwise_cons] at hpair
    have hcross2 : ∀ z ∈ rest,
        ∀ y ∈ acc.insertIdx (acc.countP (fun b => decide (b.1 < x.1))) x, z.1 ≠ y.1 := by
      intro z hz y hy
      rcases List.mem_cons.mp (hperm.mem_iff.mp hy) with rfl | hy3
      · exact (hpair.1 z hz).symm
      · exact hcross z (List.mem_cons_of_mem x hz) y hy3
    obtain ⟨hs2, hp2⟩ := ih _ hs hcross2 hpair.2
    refine ⟨hs2, ?_⟩
    exact List.Perm.trans hp2
      (List.Perm.trans (List.Perm.append_left rest hperm) List.perm_middle)

/-- C5, amended: for every finite list of points with pairwise-distinct polar
angles around the given center (the convex-position hypothesis of the claim),
none of which lies directly *below* the center (`x = cx` and `y < cy`),
`sort_corner_points` returns a permutation of the points in strictly
increasing polar-angle order (counter-clockwise).  Points directly below the
center are excluded because the code adds the bare number `360` instead of
`2*pi` radians there, which mis-orders them after the below-right quadrant. -/
theorem c5_sort_ccw (points : List (ℚ × ℚ)) (center : ℚ × ℚ)
    (hb : ∀ p ∈ points, ¬ (p.1 = center.1 ∧ p.2 < center.2))
    (hd : points.Pairwise (fun p q => polarAngle center p ≠ polarAngle center q)) :
    List.Perm (sort_corner_points points center) points ∧
    (sort_corner_points points center).Chain'
      (fun p q => polarAngle center p < polarAngle center q) := by
  simp only [sort_corner_points]
  have hpw : (points.map (fun pt => (codeAngle center pt, pt))).Pairwise
      (fun u v => u.1 ≠ v.1) := by
    rw [List.pairwise_map]
    refine pairwise_imp_mem ?_ hd
    intro p hp q hq hne
    exact codeAngle_ne_of_polar_ne center p q (hb p hp) (hb q hq) hne
  obtain ⟨hs, hperm⟩ :=
    sortInsertLoop_spec (points.map (fun pt => (codeAngle center pt, pt))) []
      List.Pairwise.nil (by simp) hpw
  rw [List.append_nil] at hperm
  have hmemty : ∀ y ∈ sortInsertLoop (points.map (fun pt => (codeAngle center pt, pt))) [],
      y.1 = codeAngle center y.2 ∧ y.2 ∈ points := by
    intro y hy
    have hy2 := hperm.mem_iff.mp hy
    rw [List.mem_map] at hy2
    obtain ⟨p, hp, rfl⟩ := hy2
    exact ⟨rfl, hp⟩
  constructor
  · have h1 : List.Perm
        ((sortInsertLoop (points.map (fun pt => (codeAngle center pt, pt))) []).map
          (fun x => x.2))
        ((points.map (fun pt => (codeAngle center pt, pt))).map (fun x => x.2)) :=
      hperm.map _
    have h2 : (points.map (fun pt => (codeAngle center pt, pt))).map (fun x => x.2)
        = points := by
      rw [List.map_map]
      have hcomp : ((fun x : ℝ × (ℚ × ℚ) => x.2) ∘ fun pt : ℚ × ℚ => (codeAngle center pt, pt))
          = id := rfl
      rw [hcomp, List.map_id]
    rw [h2] at h1
    exact h1
  · rw [List.chain'_map]
    refine chain'_imp_mem ?_ hs.chain'
    intro u hu v hv hlt
    obtain ⟨hu1, hu2⟩ := hmemty u hu
    obtain ⟨hv1, hv2⟩ := hmemty v hv
    rw [hu1, hv1] at hlt
    exact (codeAngle_lt_iff center u.2 v.2 (hb _ hu2) (hb _ hv2)).mp hlt

open Real in
theorem polarAngle_right : polarAngle (0, 0) ((1 : ℚ), (0 : ℚ)) = 0 := by
  norm_num [polarAngle, Real.arctan_zero]

open Real in
theorem polarAngle_up : polarAngle (0, 0) ((0 : ℚ), (1 : ℚ)) = π / 2 := by
  norm_num [polarAngle]

open Real in
theorem polarAngle_left : polarAngle (0, 0) ((-1 : ℚ), (0 : ℚ)) = π := by
  norm_num [polarAngle, Real.arctan_zero]

open Real in
theorem polarAngle_down : polarAngle (0, 0) ((0 : ℚ), (-1 : ℚ)) = 3 * π / 2 := by
  norm_num [polarAngle]

open Real in
theorem polarAngle_downright : polarAngle (0, 0) ((1 : ℚ), (-1 : ℚ)) = 2 * π - π / 4 := by
  have h1 : Real.arctan (-1) = -(π / 4) := by
    rw [show (-1 : ℝ) = -(1 : ℝ) by norm_num, Real.arctan_neg, Real.arctan_one]
  norm_num [polarAngle, h1]
  ring

open Real in
theorem codeAngle_right : codeAngle (0, 0) ((1 : ℚ), (0 : ℚ)) = 0 := by
  norm_num [codeAngle, Real.arctan_zero]

open Real in
theorem codeAngle_up : codeAngle (0, 0) ((0 : ℚ), (1 : ℚ)) = π / 2 := by
  norm_num [codeAngle]

open Real in
theorem codeAngle_left : codeAngle (0, 0) ((-1 : ℚ), (0 : ℚ)) = π := by
  norm_num [codeAngle, Real.arctan_zero]

open Real in
theorem codeAngle_down : codeAngle (0, 0) ((0 : ℚ), (-1 : ℚ)) = π / 2 + 360 := by
  norm_num [codeAngle]

open Real in
theorem codeAngle_downright : codeAngle (0, 0) ((1 : ℚ), (-1 : ℚ)) = -(π / 4) + 360 := by
  have h1 : Real.arctan (-1) = -(π / 4) := by
    rw [show (-1 : ℝ) = -(1 : ℝ) by norm_num, Real.arctan_neg, Real.arctan_one]
  norm_num [codeAngle, h1]

open Real in
theorem sort_corner_points_five_eval :
    sort_corner_points [((1 : ℚ), (0 : ℚ)), (0, 1), (-1, 0), (0, -1), (1, -1)] (0, 0)
      = [((1 : ℚ), (0 : ℚ)), (0, 1), (-1, 0), (1, -1), (0, -1)] := by
  have h1 : (0 : ℝ) < π / 2 := by linarith [Real.pi_pos]
  have h2 : (0 : ℝ) < π := Real.pi_pos
  have h3 : π / 2 < π := by linarith [Real.pi_pos]
  have h4 : (0 : ℝ) < π / 2 + 360 := by linarith [Real.pi_pos]
  have h5 : π / 2 < π / 2 + 360 := by linarith
  have h6 : π < π / 2 + 360 := by linarith [Real.pi_le_four, Real.pi_pos]
  have h7 : (0 : ℝ) < -(π / 4) + 360 := by linarith [Real.pi_le_four, Real.pi_pos]
  have h8 : π / 2 < -(π / 4) + 360 := by linarith [Real.pi_le_four, Real.pi_pos]
  have h9 : π < -(π / 4) + 360 := by linarith [Real.pi_le_four, Real.pi_pos]
  have h10 : ¬ (π / 2 + 360 < -(π / 4) + 360) := by
    intro h
    linarith [Real.pi_pos]
  simp only [sort_corner_points, List.map_cons, List.map_nil, codeAngle_right, codeAngle_up,
    codeAngle_left, codeAngle_down, codeAngle_downright, sortInsertLoop, pyInsertIdx,
    pyInsertIdxAux, List.insertIdx_zero, List.insertIdx_succ_cons, h1, h2, h3, h4, h5, h6,
    h7, h8, h9, h10, if_true, if_false, eq_true, eq_false]

/-- C5, counterexample: the five points `(1,0), (0,1), (-1,0), (0,-1), (1,-1)`
are vertices of a convex polygon with the center `(0,0)` interior (their polar
angles are pairwise distinct), yet `sort_corner_points` does not return them
in strictly increasing polar-angle order: the point `(0,-1)` directly below
the center receives the angle `pi/2 + 360` (the bare number 360 rather than
`2*pi` radians) and is sorted after the below-right point `(1,-1)`. -/
theorem c5_counterexample :
    ([((1 : ℚ), (0 : ℚ)), (0, 1), (-1, 0), (0, -1), (1, -1)].Pairwise
        (fun p q => polarAngle (0, 0) p ≠ polarAngle (0, 0) q)) ∧
    ¬ (sort_corner_points [((1 : ℚ), (0 : ℚ)), (0, 1), (-1, 0), (0, -1), (1, -1)]
        (0, 0)).Chain' (fun p q => polarAngle (0, 0) p < polarAngle (0, 0) q) := by
  constructor
  · refine List.pairwise_cons.mpr ⟨?_, List.pairwise_cons.mpr ⟨?_,
      List.pairwise_cons.mpr ⟨?_, List.pairwise_cons.mpr ⟨?_, List.pairwise_singleton _ _⟩⟩⟩⟩
    · intro q hq
      simp only [List.mem_cons, List.not_mem_nil, or_false] at hq
      rcases hq with rfl | rfl | rfl | rfl
      · rw [polarAngle_right, polarAngle_up]
        exact ne_of_lt (by linarith [Real.pi_pos])
      · rw [polarAngle_right, polarAngle_left]
        exact ne_of_lt (by linarith [Real.pi_pos])
      · rw [polarAngle_right, polarAngle_down]
        exact ne_of_lt (by linarith [Real.pi_pos])
      · rw [polarAngle_right, polarAngle_downright]
        exact ne_of_lt (by linarith [Real.pi_pos])
    · intro q hq
      simp only [List.mem_cons, List.not_mem_nil, or_false] at hq
      rcases hq with rfl | rfl | rfl
      · rw [polarAngle_up, polarAngle_left]
        exact ne_of_lt (by linarith [Real.pi_pos])
      · rw [polarAngle_up, polarAngle_down]
        exact ne_of_lt (by linarith [Real.pi_pos])
      · rw [polarAngle_up, polarAngle_downright]
        exact ne_of_lt (by linarith [Real.pi_pos])
    · intro q hq
      simp only [List.mem_cons, List.not_mem_nil, or_false] at hq
      rcases hq with rfl | rfl
      · rw [polarAngle_left, polarAngle_down]
        exact ne_of_lt (by linarith [Real.pi_pos])
      · rw [polarAngle_left, polarAngle_downright]
        exact ne_of_lt (by linarith [Real.pi_pos])
    · intro q hq
      simp only [List.mem_cons, List.not_mem_nil, or_false] at hq
      rcases hq with rfl
      rw [polarAngle_down, polarAngle_downright]
      exact ne_of_lt (by linarith [Real.pi_pos])
  · intro hch
    rw [sort_corner_points_five_eval] at hch
    simp only [List.chain'_cons, List.chain'_singleton, and_true] at hch
    have h45 := hch.2.2.2
    rw [polarAngle_downright, polarAngle_down] at h45
    linarith [Real.pi_pos]

/-- C5, witness for `c5_sort_ccw` on the four points
`(1,0), (0,1), (-1,0), (1,-1)` (none directly below the center `(0,0)`). -/
theorem c5_sort_ccw_witness :
    ((∀ p ∈ [((1 : ℚ), (0 : ℚ)), (0, 1), (-1, 0), (1, -1)],
        ¬ (p.1 = (((0 : ℚ), (0 : ℚ)) : ℚ × ℚ).1 ∧ p.2 < (((0 : ℚ), (0 : ℚ)) : ℚ × ℚ).2)) ∧
      [((1 : ℚ), (0 : ℚ)), (0, 1), (-1, 0), (1, -1)].Pairwise
        (fun p q => polarAngle (0, 0) p ≠ polarAngle (0, 0) q)) ∧
    (List.Perm (sort_corner_points [((1 : ℚ), (0 : ℚ)), (0, 1), (-1, 0), (1, -1)] (0, 0))
        [((1 : ℚ), (0 : ℚ)), (0, 1), (-1, 0), (1, -1)] ∧
      (sort_corner_points [((1 : ℚ), (0 : ℚ)), (0, 1), (-1, 0), (1, -1)] (0, 0)).Chain'
        (fun p q => polarAngle (0, 0) p < polarAngle (0, 0) q)) :=
  have hb : ∀ p ∈ [((1 : ℚ), (0 : ℚ)), (0, 1), (-1, 0), (1, -1)],
      ¬ (p.1 = (((0 : ℚ), (0 : ℚ)) : ℚ × ℚ).1 ∧ p.2 < (((0 : ℚ), (0 : ℚ)) : ℚ × ℚ).2) := by
    intro p hp
    simp only [List.mem_cons, List.not_mem_nil, or_false] at hp
    rcases hp with rfl | rfl | rfl | rfl <;> decide
  have hd : [((1 : ℚ), (0 : ℚ)), (0, 1), (-1, 0), (1, -1)].Pairwise
      (fun p q => polarAngle (0, 0) p ≠ polarAngle (0, 0) q) := by
    refine List.pairwise_cons.mpr ⟨?_, List.pairwise_cons.mpr ⟨?_,
      List.pairwise_cons.mpr ⟨?_, List.pairwise_singleton _ _⟩⟩⟩
    · intro q hq
      simp only [List.mem_cons, List.not_mem_nil, or_false] at hq
      rcases hq with rfl | rfl | rfl
      · rw [polarAngle_right, polarAngle_up]
        exact ne_of_lt (by linarith [Real.pi_pos])
      · rw [polarAngle_right, polarAngle_left]
        exact ne_of_lt (by linarith [Real.pi_pos])
      · rw [polarAngle_right, polarAngle_downright]
        exact ne_of_lt (by linarith [Real.pi_pos])
    · intro q hq
      simp only [List.mem_cons, List.not_mem_nil, or_false] at hq
      rcases hq with rfl | rfl
      · rw [polarAngle_up, polarAngle_left]
        exact ne_of_lt (by linarith [Real.pi_pos])
      · rw [polarAngle_up, polarAngle_downright]
        exact ne_of_lt (by linarith [Real.pi_pos])
    · intro q hq
      simp only [List.mem_cons, List.not_mem_nil, or_false] at hq
      rcases hq with rfl
      rw [polarAngle_left, polarAngle_downright]
      exact ne_of_lt (by linarith [Real.pi_pos])
  ⟨⟨hb, hd⟩, c5_sort_ccw [((1 : ℚ), (0 : ℚ)), (0, 1), (-1, 0), (1, -1)] (0, 0) hb hd⟩
